import Mathlib

/-!
Verification of the jsonnet-language-server semantic-analysis core against
its specification. The definitions below are shallow embeddings of the Go
functions in pkg/analysis/lexical (token/object.go, token/highlight.go,
locate/locate.go, lexical.go) and pkg/server (hover.go and the files
concatenated with it). Machine integers are modelled as Int (the values
involved are small line/column numbers and indices, far from overflow);
Go panics are modelled as explicit result constructors; fallible Go
functions return Except.
-/

/-! ## Positions and ranges (ast.Location, ast.LocationRange, jpos types) -/

/-- ast.Location: a 1-indexed (line, column) pair. Go's int is modelled as Int. -/
structure Loc where
  line : Int
  column : Int
deriving DecidableEq

/-- ast.LocationRange: a file name plus begin/end locations. -/
structure LocationRange where
  fileName : String
  lbegin : Loc
  lend : Loc
deriving DecidableEq

/-- jpos.Range: begin/end locations without a file name. -/
structure RangeJ where
  rstart : Loc
  rend : Loc
deriving DecidableEq

/-- jpos.Location: a file name plus a range, as returned by objectMapper.lookup. -/
structure JLocation where
  uri : String
  range : RangeJ
deriving DecidableEq

/-- Modelled from the spec: the jpos position helpers live in pkg/util/position,
which is not under src/; per the spec they only repackage coordinates. Ordering
of two 1-indexed locations, line-major. -/
def locLe (a b : Loc) : Bool :=
  decide (a.line < b.line ∨ (a.line = b.line ∧ a.column ≤ b.column))

/-- Modelled from the spec: jpos.Position.IsInJsonnetRange (pkg/util/position is
not under src/) — a position is in a range when it is at or after the range's
begin and at or before its end. -/
def isInJsonnetRange (pos : Loc) (r : LocationRange) : Bool :=
  locLe r.lbegin pos && locLe pos r.lend

/-- Modelled from the spec: jpos.FromJsonnetRange drops the file name and keeps
the coordinates. -/
def fromJsonnetRange (lr : LocationRange) : RangeJ :=
  ⟨lr.lbegin, lr.lend⟩

/-- Modelled from the spec: jpos.LocationFromJsonnet keeps the file name and the
coordinates. -/
def locationFromJsonnet (lr : LocationRange) : JLocation :=
  ⟨lr.fileName, fromJsonnetRange lr⟩

/-- The zero value of jpos.Range (Go's `jpos.Range{}`). -/
def zeroRangeJ : RangeJ := ⟨⟨0, 0⟩, ⟨0, 0⟩⟩

/-! ## The syntax tree (the ast node kinds the analysed functions consume) -/

/-- A key of ast.DesugaredObject.FieldLocs: Go stores `interface{}` keys that are
either a string, an *ast.Var (a computed field name), or some other node. -/
inductive FieldKey where
  | str (s : String)
  | varKey (v : String)
  | otherKey (tyName : String)
deriving DecidableEq

/-- The ast node kinds consumed by object.go, highlight.go and locate.go.
A desugared object carries an identity `oid` standing for the Go pointer
identity used as part of the objectKey map key, its fields as (name node,
body node) pairs, and its FieldLocs table. -/
inductive JNode where
  | literalString (value : String)
  | literalNumber (orig : String)
  | localNode (binds : List (String × LocationRange)) (body : JNode)
  | desugaredObject (oid : Nat) (fields : List (JNode × JNode))
      (fieldLocs : List (FieldKey × LocationRange))
  | functionNode (required : List (String × LocationRange))
      (optional : List (String × LocationRange)) (body : JNode)
  | indexNode (target : JNode) (indexName : String)
  | varNode (vid : String)
  | applyNode (target : JNode)
  | selfNode

/-- The Go dynamic type name of a node, as printed by the %T verb in the
error and panic messages of object.go and highlight.go. -/
def goTypeName : JNode → String
  | .literalString _ => "*ast.LiteralString"
  | .literalNumber _ => "*ast.LiteralNumber"
  | .localNode _ _ => "*ast.Local"
  | .desugaredObject _ _ _ => "*ast.DesugaredObject"
  | .functionNode _ _ _ => "*ast.Function"
  | .indexNode _ _ => "*ast.Index"
  | .varNode _ => "*ast.Var"
  | .applyNode _ => "*ast.Apply"
  | .selfNode => "*ast.Self"

/-! ## objectMapper (token/object.go) -/

/-- objectMapper: the FieldLocationIndex, keyed by (object identity, field name). -/
structure ObjectMapper where
  m : List ((Nat × String) × LocationRange)

/-- Lookup in the objectMapper's Go map. -/
def omFind (m : List ((Nat × String) × LocationRange)) (k : Nat × String) :
    Option LocationRange :=
  (m.find? (fun e => e.1 == k)).map (fun e => e.2)

/-- fieldName (object.go): a field's name must be a string literal. -/
def fieldName (nameNode : JNode) : Except String String :=
  match nameNode with
  | .literalString v => .ok v
  | _ => .error "field name is not a string"

/-- fieldByName (object.go): scan the object's fields for one named `name`;
a non-string field name encountered first aborts the scan with its error. -/
def fieldByName (fields : List (JNode × JNode)) (name : String) :
    Except String (JNode × JNode) :=
  match fields with
  | [] => .error ("field " ++ name ++ " does not exist")
  | f :: rest =>
    match fieldName f.1 with
    | .error e => .error e
    | .ok fn => if fn = name then .ok f else fieldByName rest name

/-- The outcome of objectMapper.lookup: Go can return a location, return an
error, or panic (index out of range on an empty path). -/
inductive LookupResult where
  | panicked
  | err (msg : String)
  | ok (loc : JLocation)
deriving DecidableEq

/-- objectMapper.lookup (object.go lines 32-64). `path[0]` on an empty slice
panics; otherwise the head is looked up in the index, a single-element path
returns the recorded range, and a longer path requires the field's body to be
an ast.Local whose body is an ast.DesugaredObject, recursing with the tail. -/
def ObjectMapper.lookup (om : ObjectMapper) (oid : Nat)
    (fields : List (JNode × JNode)) : List String → LookupResult
  | [] => .panicked
  | name :: path =>
    match omFind om.m (oid, name) with
    | none => .err ("field " ++ name ++ " does not exist in object")
    | some lr =>
      if path = [] then .ok (locationFromJsonnet lr)
      else
        match fieldByName fields name with
        | .error e => .err e
        | .ok f =>
          match f.2 with
          | .localNode _ lbody =>
            match lbody with
            | .desugaredObject oid2 fields2 _ => ObjectMapper.lookup om oid2 fields2 path
            | _ => .err ("expected body to be an object; it was " ++ goTypeName lbody)
          | _ => .err ("field " ++ name ++ " doesn't have local scope")

/-! ## Helper lemmas about strings and lookup -/

theorem string_data_ne {x y : String} (h : x.data ≠ y.data) : x ≠ y :=
  fun he => h (congrArg String.data he)

theorem string_append_right_ne (p x y : String) (h : x ≠ y) : p ++ x ≠ p ++ y := by
  intro he
  apply h
  have hd : p.data ++ x.data = p.data ++ y.data := by
    have := congrArg String.data he
    simpa [String.data_append] using this
  have hxy : x.data = y.data := List.append_cancel_left hd
  cases x
  cases y
  simp_all

theorem lookup_cons_ne_panicked (path : List String) :
    ∀ (om : ObjectMapper) (oid : Nat) (fields : List (JNode × JNode)),
      path ≠ [] → ObjectMapper.lookup om oid fields path ≠ .panicked := by
  induction path with
  | nil => intro om oid fields h; exact absurd rfl h
  | cons name rest ih =>
    intro om oid fields _
    show ObjectMapper.lookup om oid fields (name :: rest) ≠ .panicked
    rw [ObjectMapper.lookup]
    cases homFind : omFind om.m (oid, name) with
    | none => simp
    | some lr =>
      simp only
      by_cases hrest : rest = []
      · simp [hrest]
      · simp only [if_neg hrest]
        cases hfb : fieldByName fields name with
        | error e => simp
        | ok f =>
          simp only
          cases hf2 : f.2 with
          | localNode binds lbody =>
            cases lbody with
            | desugaredObject oid2 fields2 flocs2 => exact ih om oid2 fields2 hrest
            | literalString v => simp
            | literalNumber v => simp
            | localNode b2 l2 => simp
            | functionNode r o b => simp
            | indexNode t i => simp
            | varNode v => simp
            | applyNode t => simp
            | selfNode => simp
          | literalString v => simp
          | literalNumber v => simp
          | desugaredObject a b c => simp
          | functionNode r o b => simp
          | indexNode t i => simp
          | varNode v => simp
          | applyNode t => simp
          | selfNode => simp

/-- C1: for a desugared object and a path of length at least two,
objectMapper.lookup (a) succeeds only when the head field is recorded in the
index and (via fieldByName) its body is a local whose own body is a desugared
object, in which case it recurses into that object with the tail; (b) a missing
index entry yields the "field ... does not exist in object" error; (c) an
indexed field whose body is not a local yields the "field ... doesn't have
local scope" error; (d) a local body that is not a desugared object yields the
"expected body to be an object" error; (e) no panic occurs for a non-empty
path; and the error messages of the missing-entry case and the not-indexable
cases are pairwise distinct. -/
theorem objectMapper_lookup_multiSegment_spec
    (om : ObjectMapper) (oid : Nat) (fields : List (JNode × JNode))
    (name : String) (tail : List String) (hne : tail ≠ []) :
    (∀ loc, ObjectMapper.lookup om oid fields (name :: tail) = .ok loc →
       (omFind om.m (oid, name)).isSome = true ∧
       ∃ f, fieldByName fields name = .ok f ∧
         ∃ binds oid2 fields2 flocs2,
           f.2 = JNode.localNode binds (JNode.desugaredObject oid2 fields2 flocs2) ∧
           ObjectMapper.lookup om oid2 fields2 tail = .ok loc)
    ∧ (omFind om.m (oid, name) = none →
       ObjectMapper.lookup om oid fields (name :: tail) =
         .err ("field " ++ name ++ " does not exist in object"))
    ∧ (∀ lr f, omFind om.m (oid, name) = some lr →
       fieldByName fields name = .ok f →
       (∀ binds b, f.2 ≠ JNode.localNode binds b) →
       ObjectMapper.lookup om oid fields (name :: tail) =
         .err ("field " ++ name ++ " doesn't have local scope"))
    ∧ (∀ lr f binds b, omFind om.m (oid, name) = some lr →
       fieldByName fields name = .ok f → f.2 = JNode.localNode binds b →
       (∀ oid2 fields2 flocs2, b ≠ JNode.desugaredObject oid2 fields2 flocs2) →
       ObjectMapper.lookup om oid fields (name :: tail) =
         .err ("expected body to be an object; it was " ++ goTypeName b))
    ∧ ObjectMapper.lookup om oid fields (name :: tail) ≠ .panicked
    ∧ ("field " ++ name ++ " does not exist in object" ≠
       "field " ++ name ++ " doesn't have local scope")
    ∧ (∀ b, ("field " ++ name ++ " does not exist in object" ≠
       "expected body to be an object; it was " ++ goTypeName b)) := by
  refine ⟨?_, ?_, ?_, ?_, ?_, ?_, ?_⟩
  · intro loc h
    rw [ObjectMapper.lookup] at h
    cases homFind : omFind om.m (oid, name) with
    | none => rw [homFind] at h; simp at h
    | some lr =>
      rw [homFind] at h
      simp only [if_neg hne] at h
      cases hfb : fieldByName fields name with
      | error e => rw [hfb] at h; simp at h
      | ok f =>
        rw [hfb] at h
        simp only at h
        refine ⟨by simp [homFind], f, rfl, ?_⟩
        cases hf2 : f.2 with
        | localNode binds lbody =>
          rw [hf2] at h
          cases lbody with
          | desugaredObject oid2 fields2 flocs2 =>
            exact ⟨binds, oid2, fields2, flocs2, rfl, h⟩
          | literalString v => simp at h
          | literalNumber v => simp at h
          | localNode b2 l2 => simp at h
          | functionNode r o b => simp at h
          | indexNode t i => simp at h
          | varNode v => simp at h
          | applyNode t => simp at h
          | selfNode => simp at h
        | literalString v => rw [hf2] at h; simp at h
        | literalNumber v => rw [hf2] at h; simp at h
        | desugaredObject a b c => rw [hf2] at h; simp at h
        | functionNode r o b => rw [hf2] at h; simp at h
        | indexNode t i => rw [hf2] at h; simp at h
        | varNode v => rw [hf2] at h; simp at h
        | applyNode t => rw [hf2] at h; simp at h
        | selfNode => rw [hf2] at h; simp at h
  · intro hnone
    rw [ObjectMapper.lookup, hnone]
  · intro lr f hsome hfb hnotLocal
    cases hf2 : f.2 with
    | localNode binds lbody => exact absurd hf2 (hnotLocal binds lbody)
    | literalString v => simp [ObjectMapper.lookup, hsome, hne, hfb, hf2]
    | literalNumber v => simp [ObjectMapper.lookup, hsome, hne, hfb, hf2]
    | desugaredObject a b c => simp [ObjectMapper.lookup, hsome, hne, hfb, hf2]
    | functionNode r o b => simp [ObjectMapper.lookup, hsome, hne, hfb, hf2]
    | indexNode t i => simp [ObjectMapper.lookup, hsome, hne, hfb, hf2]
    | varNode v => simp [ObjectMapper.lookup, hsome, hne, hfb, hf2]
    | applyNode t => simp [ObjectMapper.lookup, hsome, hne, hfb, hf2]
    | selfNode => simp [ObjectMapper.lookup, hsome, hne, hfb, hf2]
  · intro lr f binds b hsome hfb hlocal hnotObj
    cases b with
    | desugaredObject a c d => exact absurd rfl (hnotObj a c d)
    | literalString v => simp [ObjectMapper.lookup, hsome, hne, hfb, hlocal, goTypeName]
    | literalNumber v => simp [ObjectMapper.lookup, hsome, hne, hfb, hlocal, goTypeName]
    | localNode b2 l2 => simp [ObjectMapper.lookup, hsome, hne, hfb, hlocal, goTypeName]
    | functionNode r o bd => simp [ObjectMapper.lookup, hsome, hne, hfb, hlocal, goTypeName]
    | indexNode t i => simp [ObjectMapper.lookup, hsome, hne, hfb, hlocal, goTypeName]
    | varNode v => simp [ObjectMapper.lookup, hsome, hne, hfb, hlocal, goTypeName]
    | applyNode t => simp [ObjectMapper.lookup, hsome, hne, hfb, hlocal, goTypeName]
    | selfNode => simp [ObjectMapper.lookup, hsome, hne, hfb, hlocal, goTypeName]
  · exact lookup_cons_ne_panicked (name :: tail) om oid fields (by simp)
  · exact string_append_right_ne ("field " ++ name) _ _ (by decide)
  · intro b
    apply string_data_ne
    intro hd
    rw [String.data_append, String.data_append] at hd
    have h0 := congrArg (fun l => l.head?) hd
    simp [String.data_append] at h0

theorem objectMapper_lookup_multiSegment_spec_witness :
    ObjectMapper.lookup ⟨[]⟩ 0 [] ["a", "b"] =
      .err ("field " ++ "a" ++ " does not exist in object") :=
  (objectMapper_lookup_multiSegment_spec ⟨[]⟩ 0 [] "a" ["b"] (by decide)).2.1 rfl

/-- The concrete scenario of Test_objectMapper_lookup in object_test.go:
the desugared tree of `{a: {b: 'c'}}` with both fields indexed; looking up
["a"] yields the range of the name a and looking up ["a", "b"] descends
through the local-wrapped nested object to the range of the name b. -/
def testNestedObject : JNode :=
  .desugaredObject 1
    [(.literalString "b", .localNode [] (.literalString "c"))]
    [(.str "b", ⟨"file.jsonnet", ⟨1, 6⟩, ⟨1, 7⟩⟩)]

def testOuterFields : List (JNode × JNode) :=
  [(.literalString "a", .localNode [] testNestedObject)]

def testOM : ObjectMapper :=
  ⟨[((0, "a"), ⟨"file.jsonnet", ⟨1, 2⟩, ⟨1, 3⟩⟩),
    ((1, "b"), ⟨"file.jsonnet", ⟨1, 6⟩, ⟨1, 7⟩⟩)]⟩

theorem lookup_matches_repo_test :
    ObjectMapper.lookup testOM 0 testOuterFields ["a"] =
      .ok ⟨"file.jsonnet", ⟨⟨1, 2⟩, ⟨1, 3⟩⟩⟩ ∧
    ObjectMapper.lookup testOM 0 testOuterFields ["a", "b"] =
      .ok ⟨"file.jsonnet", ⟨⟨1, 6⟩, ⟨1, 7⟩⟩⟩ := by
  constructor <;> rfl

/-- C9: objectMapper.lookup destructures `path[0], path[1:]` before any other
work, so an empty path panics with an out-of-range index before any index
lookup is attempted — it does not return an error. -/
theorem objectMapper_lookup_empty_path_panics (om : ObjectMapper) (oid : Nat)
    (fields : List (JNode × JNode)) :
    ObjectMapper.lookup om oid fields [] = .panicked := rfl

/-! ## fieldNameAt (token/object.go lines 204-219) -/

/-- Modelled from the spec: jpos.Position.String (pkg/util/position is not under
src/); only used inside the no-match error text. -/
def posString (pos : Loc) : String :=
  toString pos.line ++ ":" ++ toString pos.column

/-- The (name, range, error) triple returned by fieldNameAt; Go returns the
zero values "" and jpos.Range{} alongside a non-nil error. -/
structure FieldNameAtResult where
  name : String
  range : RangeJ
  errMsg : Option String
deriving DecidableEq

/-- fieldNameAt (object.go): scan the object's FieldLocs table (Go map
iteration is modelled as a scan of the association list in order) for an entry
whose range contains the position; a string key resolves to (name, range), an
*ast.Var key is reported as unsupported, any other key type as invalid. -/
def fieldNameAt (fieldLocs : List (FieldKey × LocationRange)) (pos : Loc) :
    FieldNameAtResult :=
  match fieldLocs with
  | [] => ⟨"", zeroRangeJ, some ("position " ++ posString pos ++ " isn't in an object key")⟩
  | (k, loc) :: rest =>
    if isInJsonnetRange pos loc then
      match k with
      | .str s => ⟨s, fromJsonnetRange loc, none⟩
      | .varKey _ => ⟨"", zeroRangeJ, some "variable keys are unsupported"⟩
      | .otherKey ty => ⟨"", zeroRangeJ, some ("invalid field name type " ++ ty)⟩
    else fieldNameAt rest pos

/-- C4: when the position lies in the recorded name range of a field whose
FieldLocs key is a computed (*ast.Var) name — and in no earlier entry's range —
fieldNameAt returns the explicit "variable keys are unsupported" error together
with the zero range, never a resolved range; when the first containing entry is
a string-named field, it returns that name and its range with no error. -/
theorem fieldNameAt_spec (l1 l2 : List (FieldKey × LocationRange)) (k : FieldKey)
    (r : LocationRange) (pos : Loc)
    (hnot : ∀ e ∈ l1, isInJsonnetRange pos e.2 = false)
    (hin : isInJsonnetRange pos r = true) :
    (∀ v, k = .varKey v →
      fieldNameAt (l1 ++ (k, r) :: l2) pos =
        ⟨"", zeroRangeJ, some "variable keys are unsupported"⟩)
    ∧ (∀ s, k = .str s →
      fieldNameAt (l1 ++ (k, r) :: l2) pos = ⟨s, fromJsonnetRange r, none⟩) := by
  induction l1 with
  | nil =>
    refine ⟨?_, ?_⟩
    · intro v hk
      subst hk
      simp [fieldNameAt, hin]
    · intro s hk
      subst hk
      simp [fieldNameAt, hin]
  | cons e rest ih =>
    have hrest : ∀ x ∈ rest, isInJsonnetRange pos x.2 = false := by
      intro x hx
      exact hnot x (List.mem_cons_of_mem e hx)
    have he : isInJsonnetRange pos e.2 = false := hnot e (List.mem_cons_self e rest)
    have ihr := ih hrest
    refine ⟨?_, ?_⟩
    · intro v hk
      have : fieldNameAt ((e :: rest) ++ (k, r) :: l2) pos
          = fieldNameAt (rest ++ (k, r) :: l2) pos := by
        cases e with
        | mk ek er => simp [fieldNameAt, he]
      rw [this]
      exact ihr.1 v hk
    · intro s hk
      have : fieldNameAt ((e :: rest) ++ (k, r) :: l2) pos
          = fieldNameAt (rest ++ (k, r) :: l2) pos := by
        cases e with
        | mk ek er => simp [fieldNameAt, he]
      rw [this]
      exact ihr.2 s hk

theorem fieldNameAt_spec_witness :
    fieldNameAt [(FieldKey.varKey "x", ⟨"f.jsonnet", ⟨1, 2⟩, ⟨1, 4⟩⟩)] ⟨1, 3⟩ =
      ⟨"", zeroRangeJ, some "variable keys are unsupported"⟩ :=
  (fieldNameAt_spec [] [] (FieldKey.varKey "x") ⟨"f.jsonnet", ⟨1, 2⟩, ⟨1, 4⟩⟩ ⟨1, 3⟩
    (by intro e he; simp at he) (by decide)).1 "x" rfl

/-! ## findLocation2 (locate/locate.go lines 48-75) -/

/-- The loop of findLocation2: scan the source byte by byte (bufio.ScanBytes is
modelled as walking the character list), bumping the row and resetting the
column to 1 on a newline, and returning the current location once the byte
index `i` reaches `pos`. No case of the switch ever increments the column. -/
def findLocation2Go : List Char → Int → Int → Int → Int → Except String Loc
  | [], _, _, _, _ => .error "position was not in source"
  | c :: rest, pos, row, col, i =>
    let row2 := if c = '\n' then row + 1 else row
    let col2 := if c = '\n' then 1 else col
    if pos = i then .ok ⟨row2, col2⟩
    else findLocation2Go rest pos row2 col2 (i + 1)

/-- findLocation2 (locate.go): row and col start at 1, the byte index at 0. -/
def findLocation2 (source : List Char) (pos : Int) : Except String Loc :=
  findLocation2Go source pos 1 1 0

theorem findLocation2Go_col_one (source : List Char) :
    ∀ pos row i loc, findLocation2Go source pos row 1 i = .ok loc →
      loc.column = 1 := by
  induction source with
  | nil => intro pos row i loc h; simp [findLocation2Go] at h
  | cons c rest ih =>
    intro pos row i loc h
    rw [findLocation2Go] at h
    by_cases hc : c = '\n'
    · simp only [hc, if_pos rfl] at h
      by_cases hp : pos = i
      · simp [hp] at h; rw [← h]
      · simp [hp] at h; exact ih pos (row + 1) (i + 1) loc h
    · simp only [if_neg hc] at h
      by_cases hp : pos = i
      · simp [hp] at h; rw [← h]
      · simp [hp] at h; exact ih pos row (i + 1) loc h

theorem findLocation2Go_hit (source : List Char) :
    ∀ pos row i, 0 ≤ pos - i → pos - i < (source.length : Int) →
      ∃ row2, findLocation2Go source pos row 1 i = .ok ⟨row2, 1⟩ := by
  induction source with
  | nil => intro pos row i h0 h1; simp at h1; omega
  | cons c rest ih =>
    intro pos row i h0 h1
    rw [findLocation2Go]
    by_cases hp : pos = i
    · by_cases hc : c = '\n'
      · exact ⟨row + 1, by simp [hp, hc]⟩
      · exact ⟨row, by simp [hp, hc]⟩
    · have h0' : 0 ≤ pos - (i + 1) := by
        rcases lt_or_gt_of_ne (fun he => hp he.symm) with hlt | hgt
        · omega
        · omega
      have h1' : pos - (i + 1) < (rest.length : Int) := by
        simp at h1
        omega
      by_cases hc : c = '\n'
      · simp only [hc, if_pos rfl, if_neg hp]
        exact ih pos (row + 1) (i + 1) h0' h1'
      · simp only [if_neg hc, if_neg hp]
        exact ih pos row (i + 1) h0' h1'

theorem findLocation2Go_miss (source : List Char) :
    ∀ pos row col i, (source.length : Int) ≤ pos - i →
      findLocation2Go source pos row col i = .error "position was not in source" := by
  induction source with
  | nil => intro pos row col i _; rfl
  | cons c rest ih =>
    intro pos row col i h
    rw [findLocation2Go]
    have hp : pos ≠ i := by simp at h; omega
    have h' : (rest.length : Int) ≤ pos - (i + 1) := by simp at h; omega
    simp only [if_neg hp]
    exact ih pos _ _ (i + 1) h'

/-- C10: findLocation2 never advances the column on non-newline bytes: any
location it returns has column 1; an in-range byte offset produces a location
(with column 1, only the row tracking the offset's line), and an offset at or
past the end of the source produces the "position was not in source" error
rather than a panic. -/
theorem findLocation2_spec (source : List Char) (pos : Int) :
    (∀ loc, findLocation2 source pos = .ok loc → loc.column = 1)
    ∧ (0 ≤ pos → pos < (source.length : Int) →
        ∃ row, findLocation2 source pos = .ok ⟨row, 1⟩)
    ∧ ((source.length : Int) ≤ pos →
        findLocation2 source pos = .error "position was not in source") := by
  refine ⟨?_, ?_, ?_⟩
  · intro loc h
    exact findLocation2Go_col_one source pos 1 0 loc h
  · intro h0 h1
    exact findLocation2Go_hit source pos 1 0 (by omega) (by omega)
  · intro h
    exact findLocation2Go_miss source pos 1 1 0 (by omega)

theorem findLocation2_spec_witness :
    (0 ≤ (2 : Int)) ∧ (∃ row, findLocation2 ['a', 'b', 'c'] 2 = .ok ⟨row, 1⟩) :=
  ⟨by decide, (findLocation2_spec ['a', 'b', 'c'] 2).2.1 (by decide) (by decide)⟩

/-! ## resolveIndex (server/hover.go lines 338-380)

The Go code matches the regular expression `((\w+\.)*\w+)\.[;\]\)\}]*$`
against the truncated source with FindAllString(source, 1), splits the whole
match on "." and filters out empty pieces and pieces equal to one of "}", "]",
")", ";". The RE2 engine returns the leftmost match; since the pattern is
anchored at the end of the text, every match is a suffix and the leftmost one
is the longest suffix matching the pattern. `fullMatch` decides whether a
whole string matches the anchored pattern and `findMatch` returns that longest
matching suffix. -/

/-- The closer characters of the regex's final character class. -/
def isCloserChar (c : Char) : Bool :=
  c = ';' || c = ']' || c = ')' || c = '}'

/-- RE2's \w: ASCII letters, digits and underscore. -/
def isWordChar (c : Char) : Bool :=
  c.isAlphanum || c = '_'

/-- strings.Split on ".": always at least one (possibly empty) piece. -/
def splitOnDot : List Char → List (List Char)
  | [] => [[]]
  | c :: rest =>
    match splitOnDot rest with
    | [] => [[]]
    | s :: ss => if c = '.' then [] :: s :: ss else (c :: s) :: ss

/-- A piece of `(\w+\.)*\w+`: non-empty, word characters only. -/
def segOk (s : List Char) : Bool :=
  !s.isEmpty && s.all isWordChar

/-- `l` matches `(\w+\.)*\w+`: splitting on dots yields non-empty word pieces. -/
def wordSegs (l : List Char) : Bool :=
  (splitOnDot l).all segOk

/-- `l` matches the whole pattern `((\w+\.)*\w+)\.[;\]\)\}]*$`: strip the
trailing closer run, require a final dot, and require the part before it to be
dot-separated word pieces. -/
def fullMatch (l : List Char) : Bool :=
  match l.reverse.dropWhile isCloserChar with
  | [] => false
  | c :: coreRev => c = '.' && wordSegs coreRev.reverse

/-- The leftmost (= longest, as all matches are suffixes) matching suffix. -/
def findMatch : List Char → Option (List Char)
  | [] => none
  | c :: rest => if fullMatch (c :: rest) then some (c :: rest) else findMatch rest

/-- ignoredIndexItems (hover.go): the four single-character closer strings. -/
def ignoredIndexItems : List (List Char) :=
  [['}'], [']'], [')'], [';']]

/-- stringInSlice (hover.go). -/
def stringInSlice (s : List Char) (sl : List (List Char)) : Bool :=
  sl.any (fun x => x == s)

/-- removeEmpty (hover.go): drop empty pieces and pieces that equal one of the
ignored closer strings. -/
def removeEmpty (sl : List (List Char)) : List (List Char) :=
  sl.filter (fun s => !s.isEmpty && !stringInSlice s ignoredIndexItems)

/-- resolveIndex (hover.go): no match is an error; the single match is split on
dots and filtered. -/
def resolveIndex (source : List Char) : Except String (List (List Char)) :=
  match findMatch source with
  | none => .error (String.mk source ++ " does not contain an index")
  | some m => .ok (removeEmpty (splitOnDot m))

/-- A dotted identifier path as source text: the segments joined by dots. -/
def joinDots : List (List Char) → List Char
  | [] => []
  | [s] => s
  | s :: s2 :: rest => s ++ '.' :: joinDots (s2 :: rest)

theorem splitOnDot_ne_nil (l : List Char) : splitOnDot l ≠ [] := by
  cases l with
  | nil => simp [splitOnDot]
  | cons c rest =>
    rw [splitOnDot]
    cases h : splitOnDot rest with
    | nil => simp
    | cons s ss => by_cases hc : c = '.' <;> simp [hc]

theorem splitOnDot_no_dot (s : List Char) (h : '.' ∉ s) : splitOnDot s = [s] := by
  induction s with
  | nil => rfl
  | cons c rest ih =>
    have hc : c ≠ '.' := fun he => h (he ▸ List.mem_cons_self c rest)
    have hrest : '.' ∉ rest := fun hm => h (List.mem_cons_of_mem c hm)
    rw [splitOnDot, ih hrest]
    simp [hc]

theorem splitOnDot_append_dot (s t : List Char) (h : '.' ∉ s) :
    splitOnDot (s ++ '.' :: t) = s :: splitOnDot t := by
  induction s with
  | nil =>
    simp only [List.nil_append]
    rw [splitOnDot]
    cases ht : splitOnDot t with
    | nil => exact absurd ht (splitOnDot_ne_nil t)
    | cons a b => simp
  | cons c rest ih =>
    have hc : c ≠ '.' := fun he => h (he ▸ List.mem_cons_self c rest)
    have hrest : '.' ∉ rest := fun hm => h (List.mem_cons_of_mem c hm)
    simp only [List.cons_append]
    rw [splitOnDot, ih hrest]
    simp [hc]

theorem dot_not_mem_of_word (s : List Char) (h : s.all isWordChar = true) :
    '.' ∉ s := by
  intro hm
  have := List.all_eq_true.mp h '.' hm
  exact absurd this (by decide)

theorem splitOnDot_joinDots_dot (ss : List (List Char)) (t : List Char)
    (hss : ss ≠ []) (hdot : ∀ s ∈ ss, '.' ∉ s) :
    splitOnDot (joinDots ss ++ '.' :: t) = ss ++ splitOnDot t := by
  induction ss with
  | nil => exact absurd rfl hss
  | cons s rest ih =>
    cases rest with
    | nil =>
      rw [joinDots, splitOnDot_append_dot s t (hdot s (List.mem_cons_self s []))]
      rfl
    | cons s2 rest2 =>
      rw [joinDots]
      have hassoc : (s ++ '.' :: joinDots (s2 :: rest2)) ++ '.' :: t
          = s ++ '.' :: (joinDots (s2 :: rest2) ++ '.' :: t) := by
        simp
      rw [hassoc, splitOnDot_append_dot s _ (hdot s (List.mem_cons_self s _))]
      rw [ih (by simp) (fun x hx => hdot x (List.mem_cons_of_mem s hx))]
      rfl

theorem splitOnDot_joinDots (ss : List (List Char))
    (hss : ss ≠ []) (hdot : ∀ s ∈ ss, '.' ∉ s) :
    splitOnDot (joinDots ss) = ss := by
  induction ss with
  | nil => exact absurd rfl hss
  | cons s rest ih =>
    cases rest with
    | nil => rw [joinDots, splitOnDot_no_dot s (hdot s (List.mem_cons_self s []))]
    | cons s2 rest2 =>
      rw [joinDots, splitOnDot_append_dot s _ (hdot s (List.mem_cons_self s _))]
      rw [ih (by simp) (fun x hx => hdot x (List.mem_cons_of_mem s hx))]

theorem mem_splitOnDot (l : List Char) (c : Char) (hc : c ∈ l) :
    c = '.' ∨ ∃ s ∈ splitOnDot l, c ∈ s := by
  induction l with
  | nil => simp at hc
  | cons x rest ih =>
    rcases List.mem_cons.mp hc with he | hm
    · subst he
      by_cases hx : c = '.'
      · exact Or.inl hx
      · right
        cases hs : splitOnDot rest with
        | nil => exact absurd hs (splitOnDot_ne_nil rest)
        | cons s ss =>
          refine ⟨c :: s, ?_, List.mem_cons_self c s⟩
          rw [splitOnDot, hs]
          simp [hx]
    · rcases ih hm with h | ⟨s, hsmem, hcs⟩
      · exact Or.inl h
      · right
        cases hs : splitOnDot rest with
        | nil => exact absurd hs (splitOnDot_ne_nil rest)
        | cons s0 ss0 =>
          rw [hs] at hsmem
          by_cases hx : x = '.'
          · refine ⟨s, ?_, hcs⟩
            rw [splitOnDot, hs]
            simp only [hx, if_pos rfl]
            exact List.mem_cons_of_mem [] hsmem
          · rcases List.mem_cons.mp hsmem with rfl | hss0
            · refine ⟨x :: s, ?_, List.mem_cons_of_mem x hcs⟩
              rw [splitOnDot, hs]
              simp [hx]
            · refine ⟨s, ?_, hcs⟩
              rw [splitOnDot, hs]
              simp only [hx, if_neg hx]
              exact List.mem_cons_of_mem _ hss0

theorem wordSegs_mem (l : List Char) (c : Char) (h : wordSegs l = true) (hc : c ∈ l) :
    isWordChar c = true ∨ c = '.' := by
  rcases mem_splitOnDot l c hc with h1 | ⟨s, hs, hcs⟩
  · exact Or.inr h1
  · left
    have hseg := List.all_eq_true.mp h s hs
    rw [segOk, Bool.and_eq_true] at hseg
    exact List.all_eq_true.mp hseg.2 c hcs

theorem wordSegs_false_of_bad (l : List Char) (c : Char) (hc : c ∈ l)
    (hw : isWordChar c = false) (hd : c ≠ '.') : wordSegs l = false := by
  cases hws : wordSegs l with
  | false => rfl
  | true =>
    rcases wordSegs_mem l c hws hc with h1 | h1
    · rw [h1] at hw; exact absurd hw (by simp)
    · exact absurd h1 hd

theorem dropWhile_append_all {α : Type} (p : α → Bool) (l1 l2 : List α)
    (h : ∀ c ∈ l1, p c = true) :
    (l1 ++ l2).dropWhile p = l2.dropWhile p := by
  induction l1 with
  | nil => rfl
  | cons x rest ih =>
    have hx := h x (List.mem_cons_self x rest)
    rw [List.cons_append, List.dropWhile_cons, if_pos hx]
    exact ih (fun c hc => h c (List.mem_cons_of_mem x hc))

theorem closer_ne_dot (c : Char) (h : isCloserChar c = true) : c ≠ '.' := by
  rw [isCloserChar] at h
  rcases (by simpa using h : ((c = ';' ∨ c = ']') ∨ c = ')') ∨ c = '}') with
    ((rfl | rfl) | rfl) | rfl <;> decide

theorem fullMatch_shape (body closers : List Char)
    (hcl : ∀ c ∈ closers, isCloserChar c = true) :
    fullMatch (body ++ '.' :: closers) = wordSegs body := by
  rw [fullMatch]
  have hrev : (body ++ '.' :: closers).reverse
      = closers.reverse ++ '.' :: body.reverse := by
    simp
  rw [hrev, dropWhile_append_all _ _ _ (fun c hc => hcl c (List.mem_reverse.mp hc))]
  rw [List.dropWhile_cons, if_neg (by decide)]
  simp

theorem fullMatch_good (ss : List (List Char)) (closers : List Char)
    (hss : ss ≠ []) (hseg : ∀ s ∈ ss, s ≠ [] ∧ s.all isWordChar = true)
    (hcl : ∀ c ∈ closers, isCloserChar c = true) :
    fullMatch (joinDots ss ++ '.' :: closers) = true := by
  rw [fullMatch_shape _ _ hcl, wordSegs]
  rw [splitOnDot_joinDots ss hss
    (fun s hs => dot_not_mem_of_word s (hseg s hs).2)]
  rw [List.all_eq_true]
  intro s hs
  rw [segOk, Bool.and_eq_true]
  exact ⟨by simpa using (hseg s hs).1, (hseg s hs).2⟩

theorem fullMatch_bad (a : List Char) (c : Char) (body closers : List Char)
    (hw : isWordChar c = false) (hd : c ≠ '.')
    (hcl : ∀ x ∈ closers, isCloserChar x = true) :
    fullMatch ((a ++ c :: body) ++ '.' :: closers) = false := by
  rw [fullMatch_shape _ _ hcl]
  exact wordSegs_false_of_bad _ c (by simp) hw hd

theorem findMatch_self (l : List Char) (hne : l ≠ []) (h : fullMatch l = true) :
    findMatch l = some l := by
  cases l with
  | nil => exact absurd rfl hne
  | cons c rest => simp [findMatch, h]

theorem findMatch_append (p : List Char) :
    ∀ tail : List Char, tail ≠ [] → fullMatch tail = true →
    (∀ q, q ≠ [] → q <:+ p → fullMatch (q ++ tail) = false) →
    findMatch (p ++ tail) = some tail := by
  induction p with
  | nil =>
    intro tail htail hfull _
    simpa using findMatch_self tail htail hfull
  | cons x rest ih =>
    intro tail htail hfull hbad
    have hb : fullMatch (x :: (rest ++ tail)) = false := by
      have := hbad (x :: rest) (by simp) (List.suffix_refl _)
      simpa using this
    rw [List.cons_append, findMatch, if_neg (by simp [hb])]
    exact ih tail htail hfull
      (fun q hq hsuf => hbad q hq (hsuf.trans (List.suffix_cons x rest)))

theorem suffix_ends (q p : List Char) (c : Char) (hq : q ≠ [])
    (hsuf : q <:+ p ++ [c]) : ∃ a, q = a ++ [c] := by
  obtain ⟨t, ht⟩ := hsuf
  rcases List.eq_nil_or_concat q with rfl | ⟨a, d, rfl⟩
  · exact absurd rfl hq
  · refine ⟨a, ?_⟩
    have h1 : (t ++ a) ++ [d] = p ++ [c] := by
      rw [← ht]; simp
    have h2 : some d = some c := by
      have := congrArg List.getLast? h1
      simpa [List.getLast?_concat] using this
    simp_all

theorem removeEmpty_append (a b : List (List Char)) :
    removeEmpty (a ++ b) = removeEmpty a ++ removeEmpty b := by
  simp [removeEmpty]

theorem removeEmpty_keeps (ss : List (List Char))
    (hseg : ∀ s ∈ ss, s ≠ [] ∧ s.all isWordChar = true) :
    removeEmpty ss = ss := by
  rw [removeEmpty]
  apply List.filter_eq_self.mpr
  intro s hs
  rw [Bool.and_eq_true]
  refine ⟨by simpa using (hseg s hs).1, ?_⟩
  rw [Bool.not_eq_true', stringInSlice, List.any_eq_false]
  intro x hx htrue
  have hall := (hseg s hs).2
  rw [(eq_of_beq htrue).symm] at hall
  rcases (by simpa [ignoredIndexItems] using hx :
      x = ['}'] ∨ x = [']'] ∨ x = [')'] ∨ x = [';']) with
    rfl | rfl | rfl | rfl
  all_goals exact absurd hall (by decide)

theorem removeEmpty_closers (closers : List Char)
    (hclosers : closers = [] ∨ ∃ c, isCloserChar c = true ∧ closers = [c]) :
    removeEmpty [closers] = [] := by
  rcases hclosers with rfl | ⟨c, hc, rfl⟩
  · decide
  · rw [isCloserChar] at hc
    rcases (by simpa using hc : ((c = ';' ∨ c = ']') ∨ c = ')') ∨ c = '}') with
      ((rfl | rfl) | rfl) | rfl <;> decide

/-- C3 (amended): for a source whose tail is a dotted identifier path followed
by a dot and at most ONE closer character — and whose preceding character, if
any, is neither a word character nor a dot — resolveIndex returns exactly the
path's identifier segments in order, with empty segments and the trailing
closer removed; when the regular expression finds no match, it returns an
error rather than panicking. (The original claim's "zero or more closer
characters" fails: a run of two or more closers after the final dot survives
removeEmpty as a spurious segment, see the counterexample.) -/
theorem resolveIndex_trailing_path (p : List Char) (ss : List (List Char))
    (closers : List Char)
    (hss : ss ≠ [])
    (hseg : ∀ s ∈ ss, s ≠ [] ∧ s.all isWordChar = true)
    (hclosers : closers = [] ∨ ∃ c, isCloserChar c = true ∧ closers = [c])
    (hp : p = [] ∨ ∃ q c, p = q ++ [c] ∧ isWordChar c = false ∧ c ≠ '.') :
    resolveIndex (p ++ (joinDots ss ++ '.' :: closers)) = .ok ss
    ∧ (∀ l, findMatch l = none →
        resolveIndex l = .error (String.mk l ++ " does not contain an index")) := by
  constructor
  · have hcl : ∀ c ∈ closers, isCloserChar c = true := by
      rcases hclosers with rfl | ⟨c, hc, rfl⟩
      · intro c hc; simp at hc
      · intro x hx
        rw [List.mem_singleton.mp hx]
        exact hc
    have htail_ne : joinDots ss ++ '.' :: closers ≠ [] := by simp
    have hfull := fullMatch_good ss closers hss hseg hcl
    have hbad : ∀ q, q ≠ [] → q <:+ p →
        fullMatch (q ++ (joinDots ss ++ '.' :: closers)) = false := by
      intro q hq hsuf
      rcases hp with rfl | ⟨q0, c, rfl, hw, hd⟩
      · exact absurd (List.suffix_nil.mp hsuf) hq
      · obtain ⟨a, rfl⟩ := suffix_ends q q0 c hq hsuf
        have hre : (a ++ [c]) ++ (joinDots ss ++ '.' :: closers)
            = (a ++ c :: joinDots ss) ++ '.' :: closers := by simp
        rw [hre]
        exact fullMatch_bad a c (joinDots ss) closers hw hd hcl
    have hfind := findMatch_append p _ htail_ne hfull hbad
    rw [resolveIndex, hfind]
    have hdots : ∀ s ∈ ss, '.' ∉ s :=
      fun s hs => dot_not_mem_of_word s (hseg s hs).2
    have hsplit : splitOnDot (joinDots ss ++ '.' :: closers) = ss ++ [closers] := by
      rw [splitOnDot_joinDots_dot ss closers hss hdots]
      congr 1
      rcases hclosers with rfl | ⟨c, hc, rfl⟩
      · rfl
      · refine splitOnDot_no_dot [c] ?_
        intro hm
        exact closer_ne_dot c hc (List.mem_singleton.mp hm).symm
    show Except.ok (removeEmpty (splitOnDot (joinDots ss ++ '.' :: closers)))
        = Except.ok ss
    rw [hsplit, removeEmpty_append, removeEmpty_keeps ss hseg,
      removeEmpty_closers closers hclosers, List.append_nil]
  · intro l h
    rw [resolveIndex, h]

/-- C3 counterexample: the source text "o.};" — a dotted path ["o"], a dot,
then the two trailing closers "}" and ";" — should by the claim resolve to the
single segment "o", but resolveIndex returns the closer run "};" as a spurious
second segment: removeEmpty only drops pieces that are exactly one of the four
single-character closer strings. -/
theorem resolveIndex_counterexample :
    resolveIndex ['o', '.', '}', ';'] = .ok [['o'], ['}', ';']] ∧
    resolveIndex ['o', '.', '}', ';'] ≠ .ok [['o']] := by
  constructor
  · rfl
  · intro h
    have h1 : resolveIndex ['o', '.', '}', ';'] = .ok [['o'], ['}', ';']] := rfl
    rw [h1] at h
    injection h with h2
    exact absurd h2 (by decide)

theorem resolveIndex_trailing_path_witness :
    resolveIndex
      ['l', 'o', 'c', 'a', 'l', ' ', 'o', '=', '{', 'a', ':', '9', '}', ';', ' ', 'o', '.']
      = .ok [['o']] := by
  have h := (resolveIndex_trailing_path
    ['l', 'o', 'c', 'a', 'l', ' ', 'o', '=', '{', 'a', ':', '9', '}', ';', ' ']
    [['o']] []
    (by decide)
    (by decide)
    (Or.inl rfl)
    (Or.inr ⟨['l', 'o', 'c', 'a', 'l', ' ', 'o', '=', '{', 'a', ':', '9', '}', ';'], ' ',
      by decide, by decide, by decide⟩)).1
  simpa using h

/-! ## updateNodeCache notification loop (server/hover.go lines 575-636) -/

/-- The events the select loop of updateNodeCache can consume: the one-shot
timer firing (time.NewTimer of one time unit), the background rebuild
completing (done channel), or the rebuild failing (error channel). -/
inductive CacheEvent where
  | tick
  | done
  | errEvt
deriving DecidableEq

/-- The notifications updateNodeCache sends via showMessage. -/
inductive Notif where
  | stillProcessing
  | processingComplete
deriving DecidableEq

/-- The select loop of updateNodeCache, over the sequence of events it
consumes in order: an error returns silently; completion sends the
"processing complete" message iff sentNotif is set; a timer tick sends
"still processing" and sets sentNotif. -/
def notifLoop : List CacheEvent → Bool → List Notif
  | [], _ => []
  | e :: rest, sentNotif =>
    match e with
    | .errEvt => []
    | .done => if sentNotif then [.processingComplete] else []
    | .tick => .stillProcessing :: notifLoop rest true

/-- The notifications one run of updateNodeCache sends (sentNotif starts false). -/
def updateNodeCacheNotifs (events : List CacheEvent) : List Notif :=
  notifLoop events false

/-- The event sequences one rebuild can produce: the one-shot timer fires at
most once, and the rebuild goroutine sends exactly one of done/error, which
terminates the loop. -/
def validTrace (t : List CacheEvent) : Prop :=
  ∃ pre fin, t = pre ++ [fin]
    ∧ (fin = CacheEvent.done ∨ fin = CacheEvent.errEvt)
    ∧ (pre = [] ∨ pre = [CacheEvent.tick])

/-- C5: over every valid rebuild trace, a rebuild that completes or fails
before the timer threshold sends no notification; if the threshold elapses
first, exactly one "still processing" notification is sent; "still
processing" is never sent more than once; and "processing complete" is sent
iff the rebuild completes successfully after "still processing" was sent. -/
theorem updateNodeCache_notification_spec (t : List CacheEvent)
    (h : validTrace t) :
    (t = [CacheEvent.done] ∨ t = [CacheEvent.errEvt] →
       updateNodeCacheNotifs t = [])
    ∧ (updateNodeCacheNotifs t).count Notif.stillProcessing ≤ 1
    ∧ (t.head? = some CacheEvent.tick →
       (updateNodeCacheNotifs t).count Notif.stillProcessing = 1)
    ∧ (Notif.processingComplete ∈ updateNodeCacheNotifs t ↔
       t = [CacheEvent.tick, CacheEvent.done]) := by
  obtain ⟨pre, fin, rfl, hfin, hpre⟩ := h
  rcases hpre with rfl | rfl <;> rcases hfin with rfl | rfl <;> decide

theorem updateNodeCache_notification_spec_witness :
    Notif.processingComplete ∈
      updateNodeCacheNotifs [CacheEvent.tick, CacheEvent.done] :=
  (updateNodeCache_notification_spec [CacheEvent.tick, CacheEvent.done]
    ⟨[CacheEvent.tick], CacheEvent.done, rfl, Or.inl rfl, Or.inr rfl⟩).2.2.2.mpr rfl

/-! ## HoverAtLocation (lexical.go lines 35-83) and hover.handle (hover.go
lines 25-46) -/

/-- lsp.Position: 0-indexed (line, character) at the transport boundary. -/
structure LSPPosition where
  pline : Int
  pcharacter : Int
deriving DecidableEq

/-- lsp.Range at the transport boundary. -/
structure LSPRange where
  rqstart : LSPPosition
  rqend : LSPPosition
deriving DecidableEq

/-- posToLoc (hover.go lines 41-46); hover.handle performs the same inline
`Line+1, Character+1` translation when calling HoverAtLocation. -/
def posToLoc (pos : LSPPosition) : Loc :=
  ⟨pos.pline + 1, pos.pcharacter + 1⟩

/-- The response-range construction of HoverAtLocation (lexical.go lines
70-79): every coordinate of the resolved range is translated back to the
0-indexed convention by subtracting exactly 1. -/
def rangeToLSP (r : LocationRange) : LSPRange :=
  ⟨⟨r.lbegin.line - 1, r.lbegin.column - 1⟩, ⟨r.lend.line - 1, r.lend.column - 1⟩⟩

/-- The per-coordinate form of the response translation (the inverse of
posToLoc), used to state that the two boundary translations compose to the
identity. -/
def locToPos (l : Loc) : LSPPosition :=
  ⟨l.line - 1, l.column - 1⟩

/-- locate.ErrUnresolvable and other resolution errors. -/
inductive ResolveErr where
  | unresolvable
  | other (msg : String)
deriving DecidableEq

/-- The outcome of Locatable.Resolve: a description plus the node's range. -/
structure Resolved where
  description : String
  location : LocationRange
deriving DecidableEq

/-- locate.Locatable as consumed by HoverAtLocation; the outcome of its
Resolve method is carried as data. -/
structure Locatable where
  resolveResult : Except ResolveErr Resolved

/-- lsp.MarkedString. -/
structure MarkedString where
  language : String
  value : String
deriving DecidableEq

/-- lsp.Hover. -/
structure Hover where
  contents : List MarkedString
  range : LSPRange
deriving DecidableEq

/-- emptyHover (lexical.go line 13): Go's zero value &lsp.Hover{}. -/
def emptyHover : Hover := ⟨[], ⟨⟨0, 0⟩, ⟨0, 0⟩⟩⟩

/-- HoverAtLocation (lexical.go lines 35-83), over the outcome of the hover
visitor's TokenAtLocation: an error propagates; a nil locatable (position in
a syntactically incomplete region) yields the empty hover with nil error;
ErrUnresolvable from Resolve yields the empty hover with nil error; any other
resolve error propagates; success yields the description plus the range
translated to the 0-indexed convention. -/
def HoverAtLocation (tokenResult : Except String (Option Locatable)) :
    Except String Hover :=
  match tokenResult with
  | .error e => .error e
  | .ok none => .ok emptyHover
  | .ok (some l) =>
    match l.resolveResult with
    | .error .unresolvable => .ok emptyHover
    | .error (.other e) => .error e
    | .ok resolved =>
      .ok ⟨[⟨"jsonnet", resolved.description⟩], rangeToLSP resolved.location⟩

/-- hover.handle (hover.go lines 25-46): translate the 0-indexed request
position in by adding 1 to each coordinate, then run HoverAtLocation on the
token found at that internal location (the visitor is abstracted as tokenAt). -/
def hoverHandle (pos : LSPPosition)
    (tokenAt : Loc → Except String (Option Locatable)) : Except String Hover :=
  HoverAtLocation (tokenAt (posToLoc pos))

/-- C6: an absent located token (nil locatable) or a resolution failing with
the unresolvable error makes HoverAtLocation return the empty hover and a nil
error; only other errors are returned as failures. -/
theorem hoverAtLocation_empty_result_spec (tok : Except String (Option Locatable)) :
    (tok = .ok none → HoverAtLocation tok = .ok emptyHover)
    ∧ (∀ l, tok = .ok (some l) → l.resolveResult = .error .unresolvable →
        HoverAtLocation tok = .ok emptyHover)
    ∧ (∀ l e, tok = .ok (some l) → l.resolveResult = .error (.other e) →
        HoverAtLocation tok = .error e)
    ∧ (∀ e, tok = .error e → HoverAtLocation tok = .error e) := by
  refine ⟨?_, ?_, ?_, ?_⟩
  · intro h; rw [h]; rfl
  · intro l h hr
    rw [h, HoverAtLocation, hr]
  · intro l e h hr
    rw [h, HoverAtLocation, hr]
  · intro e h; rw [h]; rfl

theorem hoverAtLocation_empty_result_spec_witness :
    HoverAtLocation (.ok (some ⟨.error .unresolvable⟩)) = .ok emptyHover :=
  (hoverAtLocation_empty_result_spec (.ok (some ⟨.error .unresolvable⟩))).2.1
    ⟨.error .unresolvable⟩ rfl rfl

/-- C7: the 0-indexed request position is translated once on the way in by
adding exactly 1 to each coordinate (so internal positions are 1-indexed
whenever the request coordinates are non-negative), every response range is
translated once on the way out by subtracting exactly 1 from each coordinate,
the two translations are mutually inverse (so the pair is applied exactly
once, not twice), and the hover pipeline consults the internal API exactly at
the translated position and emits exactly the once-translated range. -/
theorem coordinate_translation_spec (p : LSPPosition) (r : LocationRange)
    (l : Loc) (tokenAt : Loc → Except String (Option Locatable)) :
    posToLoc p = ⟨p.pline + 1, p.pcharacter + 1⟩
    ∧ rangeToLSP r = ⟨⟨r.lbegin.line - 1, r.lbegin.column - 1⟩,
        ⟨r.lend.line - 1, r.lend.column - 1⟩⟩
    ∧ locToPos (posToLoc p) = p
    ∧ posToLoc (locToPos l) = l
    ∧ (0 ≤ p.pline → 1 ≤ (posToLoc p).line)
    ∧ (0 ≤ p.pcharacter → 1 ≤ (posToLoc p).column)
    ∧ hoverHandle p tokenAt = HoverAtLocation (tokenAt ⟨p.pline + 1, p.pcharacter + 1⟩)
    ∧ (∀ lc : Locatable, ∀ res : Resolved, lc.resolveResult = .ok res →
        hoverHandle p (fun _ => .ok (some lc)) =
          .ok ⟨[⟨"jsonnet", res.description⟩], rangeToLSP res.location⟩) := by
  refine ⟨rfl, rfl, ?_, ?_, ?_, ?_, rfl, ?_⟩
  · simp [locToPos, posToLoc]
  · simp [locToPos, posToLoc]
  · intro h; simp [posToLoc]; omega
  · intro h; simp [posToLoc]; omega
  · intro lc res hres
    rw [hoverHandle, HoverAtLocation, hres]

theorem coordinate_translation_spec_witness :
    hoverHandle ⟨4, 7⟩ (fun _ => .ok (some ⟨.ok ⟨"x", ⟨"f", ⟨5, 8⟩, ⟨5, 9⟩⟩⟩⟩)) =
      .ok ⟨[⟨"jsonnet", "x"⟩], rangeToLSP ⟨"f", ⟨5, 8⟩, ⟨5, 9⟩⟩⟩ :=
  (coordinate_translation_spec ⟨4, 7⟩ ⟨"f", ⟨5, 8⟩, ⟨5, 9⟩⟩ ⟨1, 1⟩
      (fun _ => .ok none)).2.2.2.2.2.2.2
    ⟨.ok ⟨"x", ⟨"f", ⟨5, 8⟩, ⟨5, 9⟩⟩⟩⟩ ⟨"x", ⟨"f", ⟨5, 8⟩, ⟨5, 9⟩⟩⟩ rfl

/-! ## Locate dispatch (locate/locate.go lines 14-42), Handler.Handle
(server, hover.go lines 511-562), and idNode (token/highlight.go lines 39-76) -/

/-- The token kinds the Locate dispatch switches on: a node carrying its own
location, the six token kinds with dedicated locator helpers, or anything
else (the default arm). -/
inductive LocToken where
  | withLoc (r : LocationRange)
  | desugaredObjectField
  | forSpec
  | identifier
  | localBind
  | namedParameter
  | requiredParameter
  | unlocatable (tyName : String)

/-- The outcome of Locate: its result plus whether the warning log for an
unlocatable token type was emitted. -/
structure LocateOutput where
  result : Except String LocationRange
  warnedUnlocatable : Bool

/-- Locate (locate.go lines 14-42). The six dedicated locator helpers live in
files not under src/ and are abstracted as the outcomes dofR, fsR, idR, lbR,
npR, rpR; the default arm logs a warning and returns the "unable to locate"
error instead of panicking. -/
def Locate (dofR fsR idR lbR npR rpR : Except String LocationRange) :
    LocToken → LocateOutput
  | .withLoc r => ⟨.ok r, false⟩
  | .desugaredObjectField => ⟨dofR, false⟩
  | .forSpec => ⟨fsR, false⟩
  | .identifier => ⟨idR, false⟩
  | .localBind => ⟨lbR, false⟩
  | .namedParameter => ⟨npR, false⟩
  | .requiredParameter => ⟨rpR, false⟩
  | .unlocatable ty => ⟨.error ("unable to locate " ++ ty), true⟩

/-- What running a request operation can do: return a value, return an error,
or panic. -/
inductive OpOutcome where
  | value
  | errOut (msg : String)
  | panicked (msg : String)
deriving DecidableEq

/-- How Handler.Handle disposes of a request: a reply, an error reply, a log
for an unknown method, or the deferred recover catching a panic and logging
the CRASH error. No outcome propagates a panic to the process. -/
inductive HandleOutcome where
  | replied
  | repliedWithError (msg : String)
  | unknownLogged
  | recoveredPanic
deriving DecidableEq

/-- Handler.Handle (hover.go lines 511-562): the deferred recover is installed
before anything else, so a panic anywhere in one request's handling is caught
and logged; an unknown method is logged and dropped; an operation error
becomes a JSON-RPC error reply. -/
def handleRequest (methodKnown : Bool) (outcome : OpOutcome) : HandleOutcome :=
  if !methodKnown then .unknownLogged
  else
    match outcome with
    | .panicked _ => .recoveredPanic
    | .errOut e => .repliedWithError e
    | .value => .replied

/-- The outcome of idNode: the identifier (and remaining index path) it
resolved, or a panic from the default arm ("unable to find nodes of type %T"). -/
inductive IdNodeResult where
  | found (id : String) (path : List String)
  | panicked (msg : String)
deriving DecidableEq

/-- Modelled from the spec: token.resolveIndex over *ast.Index nodes (called
by idNode's index arm) is not under src/; per the spec, Highlight determines
"the identifier (and, for index expressions, the remaining path)" — the chain
of index names down to the base variable. -/
def resolveIndexNode : JNode → List String
  | .indexNode target name => resolveIndexNode target ++ [name]
  | .varNode v => [v]
  | _ => []

/-- idNode (highlight.go lines 39-76). The scope's parent map is abstracted as
parentOf (scope.go is not under src/), and Go's unbounded recursion through
s.parent is modelled with explicit fuel; every property proved below is about
arms that do not recurse. The required/optional parameter loops leave the zero
identifier when no range matches; the local-bind loop keeps the last matching
bind; the default arm panics with the node's type name. -/
def idNode (parentOf : Nat → Option JNode) : Nat → JNode → Loc → IdNodeResult
  | 0, n, _ => .panicked (goTypeName n)
  | fuel + 1, n, pos =>
    match n with
    | .desugaredObject oid _ _ =>
      match parentOf oid with
      | some p => idNode parentOf fuel p pos
      | none => .panicked "<nil>"
    | .functionNode required optional _ =>
      let id1 := ((required.find? (fun pr => isInJsonnetRange pos pr.2)).map
        Prod.fst).getD ""
      let id2 := ((optional.find? (fun pr => isInJsonnetRange pos pr.2)).map
        Prod.fst).getD id1
      .found id2 []
    | .indexNode t name =>
      match resolveIndexNode (.indexNode t name) with
      | [] => .panicked "index out of range"
      | h :: rest => .found h rest
    | .localNode binds _ =>
      .found (binds.foldl
        (fun acc b => if isInJsonnetRange pos b.2 then b.1 else acc) "") []
    | .varNode v => .found v []
    | other => .panicked (goTypeName other)

/-- C2 counterexample: the identifier-resolution switch used by Highlight does
NOT handle every node kind it can receive without panicking — its default arm
panics. Applied to an *ast.Apply node it panics with "unable to find nodes of
type *ast.Apply" instead of producing a reported defect. -/
theorem idNode_default_arm_panics :
    idNode (fun _ => none) 1 (.applyNode .selfNode) ⟨1, 1⟩ =
      .panicked "*ast.Apply" := rfl

/-- C2 (amended): the Locate dispatch's default arm logs a warning and returns
the "unable to locate" error (never a panic) for an unlocatable token type,
and a panic escaping any single request handler is caught by Handle's deferred
recover and logged, not propagated; the identifier-resolution switch (idNode),
however, panics in its default arm on unhandled node kinds such as apply
nodes — that panic is contained only by the request handler's recover. -/
theorem switch_default_defect_spec (ty m : String)
    (dofR fsR idR lbR npR rpR : Except String LocationRange) :
    Locate dofR fsR idR lbR npR rpR (.unlocatable ty) =
      ⟨.error ("unable to locate " ++ ty), true⟩
    ∧ handleRequest true (.panicked m) = .recoveredPanic
    ∧ handleRequest true (.errOut m) = .repliedWithError m
    ∧ handleRequest false (.panicked m) = .unknownLogged
    ∧ (∀ parentOf fuel pos x,
        idNode parentOf (fuel + 1) (.applyNode x) pos = .panicked "*ast.Apply") :=
  ⟨rfl, rfl, rfl, rfl, fun _ _ _ _ => rfl⟩

/-! ## Scope construction (spec section 4.4; token scope files not under src/) -/

/-- Modelled from the spec: the tree view consumed by the scope-building walk.
LocationScope, scanScope and the scope type live in token-package files that
are not under src/ (only object_test.go's TestScope exercises them); each node
carries the ranges the spec's walk consults. -/
inductive STree where
  | leaf (range : LocationRange)
  | localS (range : LocationRange) (binds : List (String × STree))
      (bodyRange : LocationRange) (body : STree)
  | functionS (range : LocationRange) (params : List String) (body : STree)
  | objectS (range : LocationRange) (fields : List (String × STree))

/-- The source range of a scope-tree node. -/
def streeRange : STree → LocationRange
  | .leaf r => r
  | .localS r _ _ _ => r
  | .functionS r _ _ => r
  | .objectS r _ => r

/-- Codepoint-lexicographic order on strings (the order of the scope's sorted
Keys). -/
def charListLt : List Char → List Char → Bool
  | [], [] => false
  | [], _ :: _ => true
  | _ :: _, [] => false
  | a :: as, b :: bs =>
    if a.toNat < b.toNat then true
    else if b.toNat < a.toNat then false
    else charListLt as bs

/-- Insert a name into the sorted, duplicate-free key list of a scope. -/
def insertName (x : String) : List String → List String
  | [] => [x]
  | y :: rest =>
    if x = y then y :: rest
    else if charListLt x.data y.data then x :: y :: rest
    else y :: insertName x rest

/-- Modelled from the spec: building the scope walks from the root toward the
position, entering a local's body scope (adding all its binds) only when the
position lies within that local's body range, entering a function's body scope
(adding all parameters) only when the position lies within the function's
range, and entering a structural literal's field scope (adding sibling field
names, then descending into the first field whose subtree range contains the
position) only when the position lies within that literal's range; Go's
unbounded descent is modelled with explicit fuel, instantiated with the
tree's depth. -/
def scopeWalk : Nat → STree → Loc → List String → List String
  | 0, _, _, acc => acc
  | fuel + 1, t, pos, acc =>
    match t with
    | .leaf _ => acc
    | .localS _ binds bodyRange body =>
      if isInJsonnetRange pos bodyRange then
        scopeWalk fuel body pos (binds.foldl (fun a b => insertName b.1 a) acc)
      else acc
    | .functionS range params body =>
      if isInJsonnetRange pos range then
        scopeWalk fuel body pos (params.foldl (fun a p => insertName p a) acc)
      else acc
    | .objectS range fields =>
      if isInJsonnetRange pos range then
        match fields.find? (fun f => isInJsonnetRange pos (streeRange f.2)) with
        | some f => scopeWalk fuel f.2 pos
            (fields.foldl (fun a f2 => insertName f2.1 a) acc)
        | none => fields.foldl (fun a f2 => insertName f2.1 a) acc
      else acc

mutual

/-- The descent depth of a scope tree, used as the walk's fuel. -/
def streeDepth : STree → Nat
  | .leaf _ => 1
  | .localS _ _ _ body => streeDepth body + 1
  | .functionS _ _ body => streeDepth body + 1
  | .objectS _ fields => streeFieldsDepth fields + 1

/-- The descent depth of a field list. -/
def streeFieldsDepth : List (String × STree) → Nat
  | [] => 0
  | f :: rest => max (streeDepth f.2) (streeFieldsDepth rest)

end

/-- Modelled from the spec: ResolveScope starts every scope from the built-in
standard-library binding "std" and accumulates the bindings the walk finds. -/
def resolveScope (t : STree) (pos : Loc) : List String :=
  scopeWalk (streeDepth t) t pos ["std"]

theorem insertName_mem (x y : String) (l : List String) (h : x ∈ l) :
    x ∈ insertName y l := by
  induction l with
  | nil => simp at h
  | cons z rest ih =>
    rw [insertName]
    by_cases h1 : y = z
    · simpa [h1] using h
    · simp only [if_neg h1]
      by_cases h2 : charListLt y.data z.data = true
      · simp only [if_pos h2]
        exact List.mem_cons_of_mem y h
      · simp only [if_neg h2]
        rcases List.mem_cons.mp h with rfl | hr
        · exact List.mem_cons_self x _
        · exact List.mem_cons_of_mem z (ih hr)

theorem foldl_insertName_mem {β : Type} (g : β → String) (x : String) :
    ∀ (l : List β) (acc : List String), x ∈ acc →
      x ∈ l.foldl (fun a b => insertName (g b) a) acc := by
  intro l
  induction l with
  | nil => intro acc h; simpa using h
  | cons b rest ih =>
    intro acc h
    rw [List.foldl_cons]
    exact ih _ (insertName_mem x (g b) acc h)

theorem scopeWalk_mem (x : String) :
    ∀ fuel : Nat, ∀ (t : STree) (pos : Loc) (acc : List String), x ∈ acc →
      x ∈ scopeWalk fuel t pos acc := by
  intro fuel
  induction fuel with
  | zero => intro t pos acc h; simpa [scopeWalk] using h
  | succ n ih =>
    intro t pos acc h
    cases t with
    | leaf r => simpa [scopeWalk] using h
    | localS r binds bodyRange body =>
      rw [scopeWalk]
      by_cases hc : isInJsonnetRange pos bodyRange = true
      · simp only [if_pos hc]
        exact ih body pos _ (foldl_insertName_mem Prod.fst x binds acc h)
      · simpa [if_neg hc] using h
    | functionS r params body =>
      rw [scopeWalk]
      by_cases hc : isInJsonnetRange pos r = true
      · simp only [if_pos hc]
        exact ih body pos _ (foldl_insertName_mem id x params acc h)
      · simpa [if_neg hc] using h
    | objectS r fields =>
      rw [scopeWalk]
      by_cases hc : isInJsonnetRange pos r = true
      · simp only [if_pos hc]
        cases hf : fields.find? (fun f => isInJsonnetRange pos (streeRange f.2)) with
        | none =>
          simp only [hf]
          exact foldl_insertName_mem Prod.fst x fields acc h
        | some f =>
          simp only [hf]
          exact ih f.2 pos _ (foldl_insertName_mem Prod.fst x fields acc h)
      · simpa [if_neg hc] using h

/-- The tree of `local a="a";a` as the scope walk sees it: a local whose
single bind is a="a" and whose body is the trailing variable a at (1,13). -/
def exampleLocalTree : STree :=
  .localS ⟨"file.jsonnet", ⟨1, 1⟩, ⟨1, 14⟩⟩
    [("a", .leaf ⟨"file.jsonnet", ⟨1, 9⟩, ⟨1, 12⟩⟩)]
    ⟨"file.jsonnet", ⟨1, 13⟩, ⟨1, 14⟩⟩
    (.leaf ⟨"file.jsonnet", ⟨1, 13⟩, ⟨1, 14⟩⟩)

/-- C8: the built-in standard-library binding "std" is in the scope built at
every tree and position (the walk starts from it and only adds bindings), and
for `local a="a";a` at the position of the trailing a the scope's key set is
exactly {a, std}. -/
theorem resolveScope_std_spec (t : STree) (pos : Loc) :
    "std" ∈ resolveScope t pos
    ∧ resolveScope exampleLocalTree ⟨1, 13⟩ = ["a", "std"] := by
  constructor
  · exact scopeWalk_mem "std" (streeDepth t) t pos ["std"] (List.mem_singleton.mpr rfl)
  · decide
